import Mathlib

/-!
Shallow embedding of the stock_analysis extraction pipelines.

The embedding covers:
* `test-process/main.py` — `extract_graphs`: contour bounding-box filtering
  and sorting (the region detector);
* `image_process/image_extract.py` and `text_image_extract.py` — the caption
  word-wrap loop, the caption compositing, and the picture-indexing loop;
* `text_+_image.py` — `chunk_text`, `ensure_collection`, and the
  image-insert loop of `process_pdf`;
* `image_process/data_store_weav.py` — the per-image batch loop with
  `generate_uuid5` identifiers, and the upsert semantics of the store.

External libraries (PIL, the embedding model, the Weaviate client) are
modelled as explicit function parameters or small state machines; the
repository's own control flow is translated directly.
-/

namespace StockAnalysis

/-! ## Python string helpers: `str.split()`, `str.strip()`, `' '.join` -/

/-- Whitespace characters recognised by Python's `str.split()` / `str.strip()`. -/
def isPySpace (c : Char) : Bool :=
  c = ' ' || c = '\t' || c = '\n' || c = '\r' || c = '\x0b' || c = '\x0c'

/-- Worker for `pySplit`: `acc` holds the characters of the current word in
reverse order. Words are maximal runs of non-whitespace characters. -/
def splitWsAux : List Char → List Char → List String
  | [], [] => []
  | [], acc => [String.mk acc.reverse]
  | c :: cs, acc =>
    if isPySpace c then
      match acc with
      | [] => splitWsAux cs []
      | _ => String.mk acc.reverse :: splitWsAux cs []
    else
      splitWsAux cs (c :: acc)

/-- Python's `str.split()` with no argument: split on runs of whitespace,
discarding empty tokens. -/
def pySplit (s : String) : List String :=
  splitWsAux s.toList []

/-- Python's `str.strip()`: drop leading and trailing whitespace. -/
def pyStrip (s : String) : String :=
  String.mk (((s.toList.dropWhile isPySpace).reverse.dropWhile isPySpace).reverse)

/-- Python's `' '.join(words)`. -/
def joinSp (ws : List String) : String :=
  String.intercalate " " ws

/-! ## `test-process/main.py`: `extract_graphs` region detector

A contour is represented by its bounding rectangle `(x, y, w, h)` as returned
by `cv2.boundingRect`. The code sorts the contours by top-edge `y`
(`sorted(contours, key=lambda c: cv2.boundingRect(c)[1])`, a stable sort,
modelled by insertion sort by `y`) and then keeps exactly the rectangles
passing the area/width/height thresholds. -/

/-- A contour bounding rectangle, as returned by `cv2.boundingRect`. -/
structure Rect where
  x : Nat
  y : Nat
  w : Nat
  h : Nat
deriving DecidableEq, Repr

/-- Ordering of rectangles by top-edge y-coordinate. -/
def rectLeY (a b : Rect) : Prop := a.y ≤ b.y

instance : DecidableRel rectLeY := fun a b => Nat.decLe a.y b.y

instance : IsTotal Rect rectLeY := ⟨fun a b => Nat.le_total a.y b.y⟩

instance : IsTrans Rect rectLeY := ⟨fun _ _ _ => Nat.le_trans⟩

def MIN_AREA : Nat := 40000
def MIN_WIDTH : Nat := 250
def MIN_HEIGHT : Nat := 180

/-- The per-contour filter of `extract_graphs`: the loop executes `continue`
when `area < MIN_AREA or w < MIN_WIDTH or h < MIN_HEIGHT`, so a rectangle is
kept exactly when that disjunction is false. -/
def keep (r : Rect) : Bool :=
  !(r.w * r.h < MIN_AREA || r.w < MIN_WIDTH || r.h < MIN_HEIGHT)

/-- The region candidates produced by `extract_graphs` for one page, in the
order they are saved: contours sorted by bounding-rectangle `y`, then
filtered by the thresholds. -/
def extract_graphs (contours : List Rect) : List Rect :=
  (List.insertionSort rectLeY contours).filter keep

/-- Inserting an element that is `rectLeY`-below everything in the list puts
it at the front. -/
lemma orderedInsert_eq_cons (a : Rect) (l : List Rect) (h : ∀ b ∈ l, rectLeY a b) :
    List.orderedInsert rectLeY a l = a :: l := by
  cases l with
  | nil => rfl
  | cons b t =>
    rw [List.orderedInsert, if_pos (h b (List.mem_cons_self b t))]

/-- Filtering commutes with ordered insertion into a sorted list. -/
lemma filter_orderedInsert (p : Rect → Bool) (a : Rect) (l : List Rect)
    (hs : l.Sorted rectLeY) :
    (List.orderedInsert rectLeY a l).filter p =
      if p a then List.orderedInsert rectLeY a (l.filter p) else l.filter p := by
  induction l with
  | nil =>
    by_cases hp : p a <;> simp [hp]
  | cons b t ih =>
    have hst : t.Sorted rectLeY := hs.of_cons
    by_cases hab : rectLeY a b
    · rw [List.orderedInsert_of_le rectLeY t hab, List.filter_cons]
      by_cases hp : p a
      · rw [if_pos hp, if_pos hp]
        have hall : ∀ c ∈ (b :: t).filter p, rectLeY a c := by
          intro c hc
          have hcm : c ∈ b :: t := List.mem_of_mem_filter hc
          rcases List.mem_cons.mp hcm with hcb | hct
          · exact hcb ▸ hab
          · exact Trans.trans hab (List.rel_of_sorted_cons hs c hct)
        rw [orderedInsert_eq_cons a _ hall]
      · rw [if_neg hp, if_neg hp]
    · have hba : rectLeY b a := (IsTotal.total (r := rectLeY) a b).resolve_left hab
      rw [List.orderedInsert, if_neg hab, List.filter_cons, List.filter_cons]
      by_cases hpb : p b
      · rw [if_pos hpb, if_pos hpb, ih hst]
        by_cases hp : p a
        · rw [if_pos hp, if_pos hp, List.orderedInsert, if_neg hab]
        · rw [if_neg hp, if_neg hp]
      · rw [if_neg hpb, if_neg hpb]
        exact ih hst

/-- Filtering commutes with insertion sort by `y`: sorting first and then
filtering yields the same list as filtering first and then sorting. -/
lemma filter_insertionSort (p : Rect → Bool) (l : List Rect) :
    (List.insertionSort rectLeY l).filter p = List.insertionSort rectLeY (l.filter p) := by
  induction l with
  | nil => rfl
  | cons a t ih =>
    rw [List.insertionSort,
      filter_orderedInsert p a _ (List.sorted_insertionSort rectLeY t), List.filter_cons]
    by_cases hp : p a
    · rw [if_pos hp, if_pos hp, ih, List.insertionSort]
    · rw [if_neg hp, if_neg hp, ih]

/-- C2: for every input list of contours, whatever their original order, the
candidates returned by `extract_graphs` are sorted by top-edge y-coordinate
ascending, and sorting all contours by `y` before filtering (as the code
does) produces the same ordered output as filtering first and then sorting
the survivors (as the spec's step order states). -/
theorem extract_graphs_sorted_filter_commutes (contours : List Rect) :
    (extract_graphs contours).Sorted rectLeY ∧
      extract_graphs contours = List.insertionSort rectLeY (contours.filter keep) := by
  constructor
  · exact (List.sorted_insertionSort rectLeY contours).filter keep
  · exact filter_insertionSort keep contours

/-- C3: a contour bounding rectangle is kept by `extract_graphs` if and only
if its area is at least 40000 and its width at least 250 and its height at
least 180; the decision is pointwise, so each rectangle occurs in the output
exactly as often as it occurs in the input when it passes the thresholds
(overlapping rectangles are both reported, with no deduplication) and not at
all otherwise. -/
theorem keep_iff_thresholds_no_dedup (r : Rect) (l : List Rect) :
    (keep r = true ↔ (40000 ≤ r.w * r.h ∧ 250 ≤ r.w ∧ 180 ≤ r.h)) ∧
      (keep r = true → (extract_graphs l).count r = l.count r) ∧
      (keep r = false → (extract_graphs l).count r = 0) := by
  refine ⟨?_, ?_, ?_⟩
  · simp [keep, MIN_AREA, MIN_WIDTH, MIN_HEIGHT, Nat.not_lt, and_assoc]
  · intro hk
    rw [extract_graphs, List.count_filter hk]
    exact (List.perm_insertionSort rectLeY l).count_eq r
  · intro hk
    rw [extract_graphs]
    simp [List.count_eq_zero, List.mem_filter, hk]

/-- Witness for C3 at a concrete rectangle and contour list: a 300×200
rectangle passes the thresholds and is reported twice when it occurs twice
(overlapping duplicates are not deduplicated), while a 100×100 rectangle is
dropped. -/
theorem keep_iff_thresholds_no_dedup_witness :
    (keep ⟨0, 5, 300, 200⟩ = true ↔
        (40000 ≤ 300 * 200 ∧ 250 ≤ 300 ∧ 180 ≤ 200)) ∧
      (extract_graphs [⟨0, 5, 300, 200⟩, ⟨0, 5, 300, 200⟩, ⟨0, 1, 100, 100⟩]).count
          ⟨0, 5, 300, 200⟩ =
        ([⟨0, 5, 300, 200⟩, ⟨0, 5, 300, 200⟩, ⟨0, 1, 100, 100⟩] : List Rect).count
          ⟨0, 5, 300, 200⟩ ∧
      (extract_graphs [⟨0, 1, 100, 100⟩]).count ⟨0, 1, 100, 100⟩ = 0 := by
  refine ⟨(keep_iff_thresholds_no_dedup ⟨0, 5, 300, 200⟩ []).1, ?_, ?_⟩
  · exact (keep_iff_thresholds_no_dedup ⟨0, 5, 300, 200⟩
      [⟨0, 5, 300, 200⟩, ⟨0, 5, 300, 200⟩, ⟨0, 1, 100, 100⟩]).2.1 (by decide)
  · exact (keep_iff_thresholds_no_dedup ⟨0, 1, 100, 100⟩ [⟨0, 1, 100, 100⟩]).2.2 (by decide)

/-! ## Caption word-wrap (`image_extract.py` lines 98–111,
`text_image_extract.py` lines 94–107)

The loop keeps a list `lines` of closed lines and a `current_line` word
list; a word is appended to `current_line` when
`draw.textlength(' '.join(current_line + [word]), font) < new_width - 40`,
otherwise `current_line` is closed (when non-empty) and the word starts a
new line; a trailing non-empty `current_line` is closed after the loop.
`measure` models `draw.textlength(·, font)` (a pixel width) and `limit`
models `new_width - 40` (a Python `int`, possibly negative). Lines are
kept as word groups; the code joins each group with `' '.join` as it is
closed, which `wrapLines` performs at the end instead. -/

/-- The wrap loop with `cur` the pending `current_line`; closed lines are
emitted in order. -/
def wrapAux (measure : String → Int) (limit : Int) :
    List String → List String → List (List String)
  | cur, [] => if cur = [] then [] else [cur]
  | cur, w :: ws =>
    if measure (joinSp (cur ++ [w])) < limit then
      wrapAux measure limit (cur ++ [w]) ws
    else if cur = [] then
      wrapAux measure limit [w] ws
    else
      cur :: wrapAux measure limit [w] ws

/-- The wrapped caption as word groups, one group per rendered line. -/
def wrapGroups (measure : String → Int) (limit : Int) (ws : List String) :
    List (List String) :=
  wrapAux measure limit [] ws

/-- The rendered lines: each closed word group joined with `' '.join`. -/
def wrapLines (measure : String → Int) (limit : Int) (ws : List String) :
    List String :=
  (wrapGroups measure limit ws).map joinSp

lemma wrapGroups_cons (measure : String → Int) (limit : Int) (w : String)
    (ws : List String) :
    wrapGroups measure limit (w :: ws) = wrapAux measure limit [w] ws := by
  rw [wrapGroups, wrapAux]
  split
  · rfl
  · rw [if_pos rfl]

lemma wrapAux_flatten (measure : String → Int) (limit : Int) :
    ∀ (ws cur : List String), (wrapAux measure limit cur ws).flatten = cur ++ ws
  | [], cur => by
    rw [wrapAux]
    split
    · simp_all
    · simp
  | w :: ws, cur => by
    rw [wrapAux]
    split
    · rw [wrapAux_flatten measure limit ws (cur ++ [w])]
      simp
    · split
      · rw [wrapAux_flatten measure limit ws [w]]
        simp_all
      · rw [List.flatten_cons, wrapAux_flatten measure limit ws [w]]
        simp

lemma wrapAux_head_extends (measure : String → Int) (limit : Int) :
    ∀ (ws cur : List String), cur ≠ [] →
      ∃ ext rest, wrapAux measure limit cur ws = (cur ++ ext) :: rest
  | [], cur, hc => by
    rw [wrapAux, if_neg hc]
    exact ⟨[], [], by simp⟩
  | w :: ws, cur, hc => by
    rw [wrapAux]
    split
    · obtain ⟨ext, rest, h⟩ :=
        wrapAux_head_extends measure limit ws (cur ++ [w]) (by simp)
      exact ⟨[w] ++ ext, rest, by simp [h]⟩
    · exact ⟨[], wrapAux measure limit [w] ws, by simp⟩

lemma wrapAux_ne_nil (measure : String → Int) (limit : Int) :
    ∀ (ws cur : List String), cur ≠ [] →
      ∀ g ∈ wrapAux measure limit cur ws, g ≠ []
  | [], cur, hc => by
    rw [wrapAux, if_neg hc]
    simpa using hc
  | w :: ws, cur, hc => by
    rw [wrapAux]
    split
    · exact wrapAux_ne_nil measure limit ws (cur ++ [w]) (by simp)
    · intro g hg
      rcases List.mem_cons.mp hg with h | h
      · exact h ▸ hc
      · exact wrapAux_ne_nil measure limit ws [w] (by simp) g h

/-- Every strict extension of the current line performed by the loop was
accepted by the width test. -/
def AccOk (measure : String → Int) (limit : Int) (g : List String) : Prop :=
  ∀ j : Nat, j + 2 ≤ g.length → measure (joinSp (g.take (j + 2))) < limit

lemma wrapAux_accOk (measure : String → Int) (limit : Int) :
    ∀ (ws cur : List String), AccOk measure limit cur →
      ∀ g ∈ wrapAux measure limit cur ws, AccOk measure limit g
  | [], cur, hc => by
    rw [wrapAux]
    split
    · simp
    · simpa using hc
  | w :: ws, cur, hc => by
    rw [wrapAux]
    split
    · refine wrapAux_accOk measure limit ws (cur ++ [w]) ?_
      intro j hj
      rw [List.length_append, List.length_singleton] at hj
      rcases Nat.lt_or_ge (j + 2) (cur.length + 1) with hlt | hge
      · have hle : j + 2 ≤ cur.length := by omega
        rw [List.take_append_of_le_length hle]
        exact hc j hle
      · have hall : (cur ++ [w]).length ≤ j + 2 := by
          rw [List.length_append, List.length_singleton]; omega
        rw [List.take_of_length_le hall]
        assumption
    · split
      · refine wrapAux_accOk measure limit ws [w] ?_
        intro j hj
        simp at hj
      · intro g hg
        rcases List.mem_cons.mp hg with h | h
        · exact h ▸ hc
        · refine wrapAux_accOk measure limit ws [w] ?_ g h
          intro j hj
          simp at hj

/-- The relation that holds between two consecutive rendered lines: the
first word of the later line did not fit at the end of the earlier one. -/
def BreakAt (measure : String → Int) (limit : Int) (a b : List String) : Prop :=
  ¬ measure (joinSp (a ++ [b.headI])) < limit

lemma wrapAux_chain (measure : String → Int) (limit : Int) :
    ∀ (ws cur : List String), cur ≠ [] →
      List.Chain' (BreakAt measure limit) (wrapAux measure limit cur ws)
  | [], cur, hc => by
    rw [wrapAux, if_neg hc]
    exact List.chain'_singleton cur
  | w :: ws, cur, hc => by
    rw [wrapAux]
    split
    · exact wrapAux_chain measure limit ws (cur ++ [w]) (by simp)
    · obtain ⟨ext, rest, he⟩ := wrapAux_head_extends measure limit ws [w] (by simp)
      rw [he]
      refine List.Chain'.cons ?_ (he ▸ wrapAux_chain measure limit ws [w] (by simp))
      have hfit : ¬ measure (joinSp (cur ++ [w])) < limit := by assumption
      exact hfit

/-- C7: the caption word-wrap is greedy. Processing the words in order, every
line produced is non-empty; inside a line every extension that was performed
passed the width test (each prefix of length ≥ 2 measures strictly under the
limit); at each line break the first word of the next line measured at the
end of the previous line was not under the limit; and a single word whose
rendered width is not under the limit still forms a line by itself. -/
theorem wrap_greedy (measure : String → Int) (limit : Int) (ws : List String) :
    (∀ g ∈ wrapGroups measure limit ws, g ≠ []) ∧
      (∀ g ∈ wrapGroups measure limit ws, ∀ j : Nat, j + 2 ≤ g.length →
        measure (joinSp (g.take (j + 2))) < limit) ∧
      List.Chain' (BreakAt measure limit) (wrapGroups measure limit ws) ∧
      (∀ w : String, wrapGroups measure limit [w] = [[w]]) := by
  refine ⟨?_, ?_, ?_, ?_⟩
  · cases ws with
    | nil => simp [wrapGroups, wrapAux]
    | cons w ws =>
      rw [wrapGroups_cons]
      exact wrapAux_ne_nil measure limit ws [w] (by simp)
  · cases ws with
    | nil => simp [wrapGroups, wrapAux]
    | cons w ws =>
      rw [wrapGroups_cons]
      intro g hg
      exact wrapAux_accOk measure limit ws [w] (fun j hj => by simp at hj) g hg
  · cases ws with
    | nil => simp [wrapGroups, wrapAux]
    | cons w ws =>
      rw [wrapGroups_cons]
      exact wrapAux_chain measure limit ws [w] (by simp)
  · intro w
    rw [wrapGroups_cons, wrapAux]
    simp

/-- Witness for C7 at a concrete measure (string length) and limit 6 on the
words `["aa", "bb", "cc"]`, which wrap to the lines `["aa", "bb"]` and
`["cc"]`. -/
theorem wrap_greedy_witness :
    (["aa", "bb"] : List String) ≠ [] ∧
      (fun s => (s.length : Int)) (joinSp ((["aa", "bb"] : List String).take 2)) < 6 ∧
      List.Chain' (BreakAt (fun s => (s.length : Int)) 6)
        (wrapGroups (fun s => (s.length : Int)) 6 ["aa", "bb", "cc"]) ∧
      wrapGroups (fun s => (s.length : Int)) 6 ["zz"] = [["zz"]] := by
  have h := wrap_greedy (fun s => (s.length : Int)) 6 ["aa", "bb", "cc"]
  exact ⟨h.1 ["aa", "bb"] (by decide), h.2.1 ["aa", "bb"] (by decide) 0 (by decide),
    h.2.2.1, h.2.2.2 "zz"⟩

/-- C8: the word-wrap loses and duplicates no text. For every caption word
list and every width-measuring function, concatenating the produced lines
in order yields exactly the original word sequence, and no produced line is
empty. -/
theorem wrap_flatten_eq_words (measure : String → Int) (limit : Int) (ws : List String) :
    (wrapGroups measure limit ws).flatten = ws ∧
      ∀ g ∈ wrapGroups measure limit ws, g ≠ [] := by
  constructor
  · rw [wrapGroups]
    simpa using wrapAux_flatten measure limit ws []
  · cases ws with
    | nil => simp [wrapGroups, wrapAux]
    | cons w ws =>
      rw [wrapGroups_cons]
      exact wrapAux_ne_nil measure limit ws [w] (by simp)

/-- Witness for C8 at a concrete measure and word list. -/
theorem wrap_flatten_eq_words_witness :
    (wrapGroups (fun s => (s.length : Int)) 6 ["aa", "bb", "cc"]).flatten =
        ["aa", "bb", "cc"] ∧
      (["cc"] : List String) ≠ [] :=
  ⟨(wrap_flatten_eq_words (fun s => (s.length : Int)) 6 ["aa", "bb", "cc"]).1,
    (wrap_flatten_eq_words (fun s => (s.length : Int)) 6 ["aa", "bb", "cc"]).2
      ["cc"] (by decide)⟩

/-! ## Caption compositing (`image_extract.py` lines 83–126,
`text_image_extract.py` lines 79–116)

A PIL image is modelled by its size and a pixel function. The code builds a
white canvas of size `(pil_image.width, pil_image.height + caption_height)`
with `caption_height = font_size + 20`, draws the wrapped caption lines on
it, and finally pastes the original image at `(0, caption_height)` — the
paste happens last, so inside the pasted region the composite shows exactly
the original pixels. `render` models PIL's rasterization of the drawn
caption lines over the white canvas (`ImageDraw.Draw` + `draw.text` at
`(20, 10 + k*(font_size + 5))` per line), and `measure` models
`draw.textlength(·, font)`. -/

/-- A raster image: dimensions and a pixel function (RGB packed as `Nat`). -/
structure PImage where
  width : Nat
  height : Nat
  pix : Nat → Nat → Nat

/-- The caption compositor shared by `extract_graphs_to_single_file` and
`extract_text_and_images_to_file`. -/
def compositeWithCaption (fontSize : Nat) (measure : String → Int)
    (render : List String → Nat → Nat → Nat) (caption : String)
    (img : PImage) : PImage :=
  let caption_height := fontSize + 20
  let new_width := img.width
  let new_height := img.height + caption_height
  let lines := wrapLines measure ((new_width : Int) - 40) (pySplit caption)
  { width := new_width
    height := new_height
    pix := fun x y =>
      if caption_height ≤ y ∧ y < caption_height + img.height ∧ x < img.width then
        img.pix x (y - caption_height)
      else
        render lines x y }

/-- C6: for every region image and every non-empty caption, the composite
image has width equal to the region's width and height equal to the
region's height plus `font_size + 20`, and inside the pasted region — at
vertical offset `font_size + 20` — the composite shows the original region
pixels unmodified. -/
theorem composite_dims_and_paste (fontSize : Nat) (measure : String → Int)
    (render : List String → Nat → Nat → Nat) (caption : String) (img : PImage)
    (hc : caption ≠ "") :
    (compositeWithCaption fontSize measure render caption img).width = img.width ∧
      (compositeWithCaption fontSize measure render caption img).height =
        img.height + (fontSize + 20) ∧
      ∀ x y, x < img.width → y < img.height →
        (compositeWithCaption fontSize measure render caption img).pix x
            (y + (fontSize + 20)) =
          img.pix x y := by
  refine ⟨rfl, rfl, ?_⟩
  intro x y hx hy
  show (if fontSize + 20 ≤ y + (fontSize + 20) ∧
      y + (fontSize + 20) < fontSize + 20 + img.height ∧ x < img.width then
    img.pix x (y + (fontSize + 20) - (fontSize + 20))
  else
    render (wrapLines measure ((img.width : Int) - 40) (pySplit caption)) x
      (y + (fontSize + 20))) = img.pix x y
  rw [if_pos ⟨by omega, by omega, hx⟩]
  congr 1
  omega

/-- Witness for C6 at a concrete 2×3 image and the caption "cap". -/
theorem composite_dims_and_paste_witness :
    (compositeWithCaption 24 (fun s => (s.length : Int)) (fun _ _ _ => 7) "cap"
          ⟨2, 3, fun x y => x + 10 * y⟩).width = 2 ∧
      (compositeWithCaption 24 (fun s => (s.length : Int)) (fun _ _ _ => 7) "cap"
          ⟨2, 3, fun x y => x + 10 * y⟩).height = 3 + (24 + 20) ∧
      (compositeWithCaption 24 (fun s => (s.length : Int)) (fun _ _ _ => 7) "cap"
          ⟨2, 3, fun x y => x + 10 * y⟩).pix 1 (2 + (24 + 20)) = 21 := by
  have h := composite_dims_and_paste 24 (fun s => (s.length : Int)) (fun _ _ _ => 7)
    "cap" ⟨2, 3, fun x y => x + 10 * y⟩ (by decide)
  exact ⟨h.1, h.2.1, h.2.2 1 2 (by decide) (by decide)⟩

/-! ## `text_+_image.py` lines 168–181: `chunk_text`

`chunk_text(text, max_len)` splits the text into words, accumulates words
into `cur`, and flushes `cur` as a chunk whenever `len(cur) >= max_len`
(the check runs after each append); a non-empty trailing `cur` becomes the
final chunk. Each chunk is emitted as `' '.join(cur)`; the chunks are kept
here as word groups, joined at the end by `chunk_text`. -/

/-- The chunking loop with `cur` the pending word list. -/
def chunkAux (maxLen : Nat) : List String → List String → List (List String)
  | cur, [] => if cur = [] then [] else [cur]
  | cur, w :: ws =>
    if maxLen ≤ (cur ++ [w]).length then
      (cur ++ [w]) :: chunkAux maxLen [] ws
    else
      chunkAux maxLen (cur ++ [w]) ws

/-- The chunks of `chunk_text` as word groups. -/
def chunkGroups (maxLen : Nat) (ws : List String) : List (List String) :=
  chunkAux maxLen [] ws

/-- `chunk_text(text, max_len)`: the list of chunk strings. -/
def chunk_text (maxLen : Nat) (text : String) : List String :=
  (chunkGroups maxLen (pySplit text)).map joinSp

lemma chunkAux_flatten (maxLen : Nat) :
    ∀ (ws cur : List String), (chunkAux maxLen cur ws).flatten = cur ++ ws
  | [], cur => by
    rw [chunkAux]
    split
    · simp_all
    · simp
  | w :: ws, cur => by
    rw [chunkAux]
    split
    · rw [List.flatten_cons, chunkAux_flatten maxLen ws []]
      simp
    · rw [chunkAux_flatten maxLen ws (cur ++ [w])]
      simp

lemma chunkAux_le (maxLen : Nat) :
    ∀ (ws cur : List String), cur.length < maxLen →
      ∀ g ∈ chunkAux maxLen cur ws, g.length ≤ maxLen
  | [], cur, hc => by
    rw [chunkAux]
    split
    · simp
    · intro g hg
      rw [List.mem_singleton.mp hg]
      omega
  | w :: ws, cur, hc => by
    rw [chunkAux]
    split
    · intro g hg
      rcases List.mem_cons.mp hg with h | h
      · rw [h, List.length_append, List.length_singleton]
        omega
      · exact chunkAux_le maxLen ws [] (by simp only [List.length_nil]; omega) g h
    · refine chunkAux_le maxLen ws (cur ++ [w]) ?_
      rw [List.length_append, List.length_singleton]
      have : ¬ maxLen ≤ (cur ++ [w]).length := by assumption
      rw [List.length_append, List.length_singleton] at this
      omega

lemma chunkAux_dropLast (maxLen : Nat) :
    ∀ (ws cur : List String), cur.length < maxLen →
      ∀ g ∈ (chunkAux maxLen cur ws).dropLast, g.length = maxLen
  | [], cur, _ => by
    rw [chunkAux]
    split
    · simp
    · simp
  | w :: ws, cur, hc => by
    rw [chunkAux]
    split
    · match hrest : chunkAux maxLen [] ws with
      | [] => simp
      | r :: rs =>
        rw [List.dropLast_cons_of_ne_nil (by simp)]
        intro g hg
        rcases List.mem_cons.mp hg with h | h
        · rw [h, List.length_append, List.length_singleton]
          have hle : maxLen ≤ (cur ++ [w]).length := by assumption
          rw [List.length_append, List.length_singleton] at hle
          omega
        · exact chunkAux_dropLast maxLen ws [] (by simp only [List.length_nil]; omega) g (hrest ▸ h)
    · refine chunkAux_dropLast maxLen ws (cur ++ [w]) ?_
      have : ¬ maxLen ≤ (cur ++ [w]).length := by assumption
      omega

/-- C9: for every input string and every `max_len ≥ 1`, the chunks contain
at most `max_len` words each, every chunk except possibly the last contains
exactly `max_len` words, concatenating the chunks' words in order yields
exactly the word sequence of the input string, and the empty string yields
an empty chunk list. -/
theorem chunk_text_spec (maxLen : Nat) (text : String) (hm : 1 ≤ maxLen) :
    (∀ g ∈ chunkGroups maxLen (pySplit text), g.length ≤ maxLen) ∧
      (∀ g ∈ (chunkGroups maxLen (pySplit text)).dropLast, g.length = maxLen) ∧
      (chunkGroups maxLen (pySplit text)).flatten = pySplit text ∧
      chunk_text maxLen "" = [] := by
  refine ⟨?_, ?_, ?_, ?_⟩
  · exact chunkAux_le maxLen (pySplit text) [] (by simpa using hm)
  · exact chunkAux_dropLast maxLen (pySplit text) [] (by simpa using hm)
  · simpa using chunkAux_flatten maxLen (pySplit text) []
  · rfl

/-- Witness for C9 with `max_len = 2` on a five-word string: chunks are
`"a b"`, `"c d"`, `"e"`. -/
theorem chunk_text_spec_witness :
    (["e"] : List String).length ≤ 2 ∧
      (["a", "b"] : List String).length = 2 ∧
      (chunkGroups 2 (pySplit "a b c d e")).flatten = pySplit "a b c d e" ∧
      chunk_text 2 "" = [] := by
  have h := chunk_text_spec 2 "a b c d e" (by decide)
  exact ⟨h.1 ["e"] (by decide), h.2.1 ["a", "b"] (by decide), h.2.2.1, h.2.2.2⟩

/-! ## `text_+_image.py` lines 57–99: `ensure_collection`

The collection state is the existing "PDFContent" collection, if any: its
configured vector size as read from `cfg.vector_index_config.vector_size`
(`none` when reading it raises, which the bare `except` turns into
`existing_dim = None`), and its stored records. `ensure_collection` reads
the existing dimension; on any mismatch with `VECTOR_SIZE` it deletes the
collection and raises, and the outer `except` (also reached when no
collection exists) creates a fresh empty collection with vector size 512. -/

def VECTOR_SIZE : Nat := 512

/-- A Weaviate collection: configured vector dimension (`none` when the
configuration cannot be read) and stored records. -/
structure Collection where
  dim : Option Nat
  records : List (String × List Int)
deriving DecidableEq, Repr

/-- The vector-store state relevant to `ensure_collection`: the
"PDFContent" collection, when it exists. -/
structure WStore where
  pdfContent : Option Collection
deriving DecidableEq, Repr

/-- `ensure_collection()`: returns the new store state and the collection
handed back to the pipeline. -/
def ensure_collection (st : WStore) : WStore × Collection :=
  match st.pdfContent with
  | none =>
    let fresh : Collection := { dim := some VECTOR_SIZE, records := [] }
    ({ pdfContent := some fresh }, fresh)
  | some col =>
    if col.dim = some VECTOR_SIZE then
      (st, col)
    else
      let fresh : Collection := { dim := some VECTOR_SIZE, records := [] }
      ({ pdfContent := some fresh }, fresh)

/-- C4: when the existing collection's configured vector dimension differs
from the pipeline's vector size (512), `ensure_collection` deletes the
existing collection — discarding all previously stored vectors — and
creates a fresh one; when the existing dimension matches, the existing
collection is returned and the store is unchanged. -/
theorem ensure_collection_spec (st : WStore) (col : Collection)
    (h : st.pdfContent = some col) :
    (col.dim ≠ some VECTOR_SIZE →
        ensure_collection st =
          ({ pdfContent := some { dim := some VECTOR_SIZE, records := [] } },
            { dim := some VECTOR_SIZE, records := [] })) ∧
      (col.dim = some VECTOR_SIZE → ensure_collection st = (st, col)) := by
  constructor
  · intro hne
    rw [ensure_collection, h]
    simp [hne]
  · intro heq
    rw [ensure_collection, h]
    simp [heq]

/-- Witness for C4: a collection with dimension 384 holding one record is
deleted and recreated empty; a collection with dimension 512 is returned
unchanged. -/
theorem ensure_collection_spec_witness :
    ensure_collection ⟨some ⟨some 384, [("a", [1, 2])]⟩⟩ =
        (⟨some ⟨some VECTOR_SIZE, []⟩⟩, ⟨some VECTOR_SIZE, []⟩) ∧
      ensure_collection ⟨some ⟨some 512, [("a", [1, 2])]⟩⟩ =
        (⟨some ⟨some 512, [("a", [1, 2])]⟩⟩, ⟨some 512, [("a", [1, 2])]⟩) := by
  constructor
  · exact (ensure_collection_spec ⟨some ⟨some 384, [("a", [1, 2])]⟩⟩
      ⟨some 384, [("a", [1, 2])]⟩ rfl).1 (by decide)
  · exact (ensure_collection_spec ⟨some ⟨some 512, [("a", [1, 2])]⟩⟩
      ⟨some 512, [("a", [1, 2])]⟩ rfl).2 (by decide)

/-! ## `image_process/data_store_weav.py` lines 58–84: the batch loop

For each image path the loop opens the image, encodes it to a vector,
appends a backup entry, and adds an object to the Weaviate batch with
`uuid=generate_uuid5(img_path)`; any exception in the body is caught, a
`Failed ...` message is printed, and the loop continues with the next path.
`u` models `weaviate.util.generate_uuid5` (a pure deterministic hash) and
`enc` models `Image.open(...).convert("RGB")` + `model.encode(...)`, whose
failures carry a message. -/

/-- `img_path.name` of `pathlib`: the final path component. -/
def baseName (p : String) : String :=
  ((p.splitOn "/").getLast?).getD p

/-- An entry of the local JSON backup list. -/
structure BackupEntry where
  filename : String
  path : String
  vector : List Int
deriving DecidableEq, Repr

/-- An object added to the Weaviate batch. -/
structure WeavObject where
  uuid : String
  filename : String
  path : String
  vector : List Int
deriving DecidableEq, Repr

/-- The outcome of the batch loop: the JSON backup list, the objects sent to
the store, and the printed error messages. -/
structure BatchResult where
  backup : List BackupEntry
  objects : List WeavObject
  errors : List String
deriving DecidableEq, Repr

/-- The per-image loop of `data_store_weav.py`. -/
def processBatch (u : String → String) (enc : String → Except String (List Int)) :
    List String → BatchResult
  | [] => ⟨[], [], []⟩
  | p :: ps =>
    let r := processBatch u enc ps
    match enc p with
    | .ok v =>
      ⟨⟨baseName p, p, v⟩ :: r.backup, ⟨u p, baseName p, p, v⟩ :: r.objects, r.errors⟩
    | .error e =>
      ⟨r.backup, r.objects, ("Failed " ++ p ++ ": " ++ e) :: r.errors⟩

lemma processBatch_append (u : String → String)
    (enc : String → Except String (List Int)) :
    ∀ ps qs : List String,
      processBatch u enc (ps ++ qs) =
        ⟨(processBatch u enc ps).backup ++ (processBatch u enc qs).backup,
          (processBatch u enc ps).objects ++ (processBatch u enc qs).objects,
          (processBatch u enc ps).errors ++ (processBatch u enc qs).errors⟩
  | [], qs => rfl
  | p :: ps, qs => by
    rw [List.cons_append, processBatch, processBatch_append u enc ps qs, processBatch]
    cases enc p <;> rfl

/-- C5: a processing failure on one item of the batch is caught locally: the
failing item contributes no backup entry and no store object, a `Failed`
message is emitted for it, and every item before and after it is processed
exactly as it would be without the failing item — one item's failure never
aborts the batch. -/
theorem batch_failure_skips_item (u : String → String)
    (enc : String → Except String (List Int)) (ps qs : List String)
    (p e : String) (hp : enc p = Except.error e) :
    processBatch u enc (ps ++ p :: qs) =
      ⟨(processBatch u enc (ps ++ qs)).backup,
        (processBatch u enc (ps ++ qs)).objects,
        (processBatch u enc ps).errors ++
          ("Failed " ++ p ++ ": " ++ e) :: (processBatch u enc qs).errors⟩ := by
  rw [processBatch_append u enc ps (p :: qs), processBatch_append u enc ps qs,
    processBatch, hp]

/-- Witness for C5: in a three-path batch whose middle item fails to encode,
the other two items are still backed up and inserted, and one failure
message is printed. -/
theorem batch_failure_skips_item_witness :
    processBatch (fun p => "uuid5:" ++ p)
        (fun p => if p = "bad.png" then Except.error "corrupt"
          else Except.ok [(p.length : Int)])
        (["a.png"] ++ "bad.png" :: ["b.png"]) =
      ⟨(processBatch (fun p => "uuid5:" ++ p)
          (fun p => if p = "bad.png" then Except.error "corrupt"
            else Except.ok [(p.length : Int)]) (["a.png"] ++ ["b.png"])).backup,
        (processBatch (fun p => "uuid5:" ++ p)
          (fun p => if p = "bad.png" then Except.error "corrupt"
            else Except.ok [(p.length : Int)]) (["a.png"] ++ ["b.png"])).objects,
        (processBatch (fun p => "uuid5:" ++ p)
          (fun p => if p = "bad.png" then Except.error "corrupt"
            else Except.ok [(p.length : Int)]) ["a.png"]).errors ++
          ("Failed " ++ "bad.png" ++ ": " ++ "corrupt") ::
            (processBatch (fun p => "uuid5:" ++ p)
              (fun p => if p = "bad.png" then Except.error "corrupt"
                else Except.ok [(p.length : Int)]) ["b.png"]).errors⟩ :=
  batch_failure_skips_item (fun p => "uuid5:" ++ p)
    (fun p => if p = "bad.png" then Except.error "corrupt"
      else Except.ok [(p.length : Int)])
    ["a.png"] ["b.png"] "bad.png" "corrupt" (by simp)

/-! ## Store identifier semantics

Weaviate object writes come in two forms in this repository:

* `data_store_weav.py` line 74–81: `batch.add_object(..., uuid=generate_uuid5(img_path))`
  — an explicit deterministic id; writing an id that already exists
  replaces the stored object (upsert);
* `text_+_image.py` lines 229–236 and 250–257: `collection.data.insert(properties, vector)`
  — no uuid argument; the server then assigns a fresh random UUID to every
  inserted object (modelled by a fresh counter-derived id). -/

/-- Upsert an object into the store keyed by uuid: replace the stored
object carrying the same uuid, or append when the uuid is new. -/
def upsertObj (st : List WeavObject) (o : WeavObject) : List WeavObject :=
  if st.any (fun r => r.uuid = o.uuid) then
    st.map (fun r => if r.uuid = o.uuid then o else r)
  else
    st ++ [o]

/-- Apply a run's batch objects to the store in order. -/
def applyBatch (st : List WeavObject) (objs : List WeavObject) : List WeavObject :=
  objs.foldl upsertObj st

lemma upsertObj_uuids_nodup (st : List WeavObject) (o : WeavObject)
    (h : (st.map (fun r => r.uuid)).Nodup) :
    ((upsertObj st o).map (fun r => r.uuid)).Nodup := by
  rw [upsertObj]
  split
  · have : (st.map (fun r => if r.uuid = o.uuid then o else r)).map (fun r => r.uuid) =
        st.map (fun r => r.uuid) := by
      rw [List.map_map]
      refine List.map_congr_left ?_
      intro r _
      by_cases hr : r.uuid = o.uuid
      · simp [hr]
      · simp [hr]
    rw [this]
    exact h
  · rw [List.map_append, List.map_singleton]
    rw [List.nodup_append]
    refine ⟨h, List.nodup_singleton _, ?_⟩
    intro a ha hb
    rw [List.mem_singleton.mp hb] at ha
    have : ¬ st.any (fun r => r.uuid = o.uuid) = true := by assumption
    rw [List.any_eq_true] at this
    obtain ⟨r, hr, hu⟩ := List.mem_map.mp ha
    exact this ⟨r, hr, by simp [hu]⟩

lemma applyBatch_uuids_nodup (objs : List WeavObject) :
    ∀ st : List WeavObject, (st.map (fun r => r.uuid)).Nodup →
      ((applyBatch st objs).map (fun r => r.uuid)).Nodup := by
  induction objs with
  | nil => intro st h; exact h
  | cons o objs ih =>
    intro st h
    exact ih (upsertObj st o) (upsertObj_uuids_nodup st o h)

/-- C1 (amended): in the image-indexing script `data_store_weav.py`, the id
of every object written to the vector store is `generate_uuid5` of its
source path — a deterministic function of the path — and applying a run's
objects to a store whose ids are duplicate-free leaves the ids
duplicate-free: re-running upserts the same ids and creates no duplicate
records. (The text+image pipeline's insert calls are the exception — see
the counterexample.) -/
theorem uuid5_ids_deterministic_no_dup (u : String → String)
    (enc : String → Except String (List Int)) (ps : List String)
    (st : List WeavObject) (h : (st.map (fun r => r.uuid)).Nodup) :
    (∀ o ∈ (processBatch u enc ps).objects, o.uuid = u o.path) ∧
      ((applyBatch st (processBatch u enc ps).objects).map
          (fun r => r.uuid)).Nodup := by
  constructor
  · induction ps with
    | nil => intro o ho; simp [processBatch] at ho
    | cons p ps ih =>
      intro o ho
      rw [processBatch] at ho
      cases he : enc p with
      | ok v =>
        rw [he] at ho
        rcases List.mem_cons.mp ho with hh | hh
        · rw [hh]
        · exact ih o hh
      | error e =>
        rw [he] at ho
        exact ih o ho
  · exact applyBatch_uuids_nodup (processBatch u enc ps).objects st h

/-- Witness for C1's amended theorem on a concrete two-image run applied to
an empty store. -/
theorem uuid5_ids_deterministic_no_dup_witness :
    ((applyBatch []
        (processBatch (fun p => "uuid5:" ++ p)
          (fun p => Except.ok [(p.length : Int)]) ["a.png", "b.png"]).objects).map
      (fun r => r.uuid)).Nodup :=
  (uuid5_ids_deterministic_no_dup (fun p => "uuid5:" ++ p)
    (fun p => Except.ok [(p.length : Int)]) ["a.png", "b.png"] []
    (by simp)).2

/-- A record inserted by `text_+_image.py`'s `collection.data.insert`. -/
structure TIRecord where
  id : String
  content : String
  content_type : String
  metadata : String
deriving DecidableEq, Repr

/-- The collection state seen by `text_+_image.py`'s insert calls, with the
server-side fresh-UUID counter made explicit. -/
structure TIStore where
  nextFresh : Nat
  records : List TIRecord
deriving DecidableEq, Repr

/-- `collection.data.insert(properties=..., vector=...)` with no `uuid`
argument: the server assigns a fresh random UUID — unrelated to the
properties — to the new object; freshness is modelled by a counter. -/
def ti_insert (st : TIStore) (content ctype md : String) : TIStore :=
  { nextFresh := st.nextFresh + 1,
    records := st.records ++ [⟨"auto-" ++ toString st.nextFresh, content, ctype, md⟩] }

/-- Step 4 of `process_pdf`: for each page-image path, embed the image and
insert it with `content = path`, `content_type = "image"`,
`metadata = json.dumps({"path": path})` — and no uuid. -/
def ti_insert_images (paths : List String) (st : TIStore) : TIStore :=
  paths.foldl
    (fun s p => ti_insert s p "image" ("\x7b\"path\": \"" ++ p ++ "\"\x7d")) st

/-- Counterexample to C1 as stated: running the text+image pipeline's
image-insert loop twice over the same one-image input yields two stored
records for the same source path with two different ids — the record id is
not a function of the path, and the second run duplicates the record
instead of upserting it. -/
theorem ti_insert_not_idempotent_counterexample :
    ((ti_insert_images ["images/page_1.png"]
        (ti_insert_images ["images/page_1.png"] ⟨0, []⟩)).records.map
      (fun r => (r.id, r.content))) =
        [("auto-0", "images/page_1.png"), ("auto-1", "images/page_1.png")] ∧
      ¬ (ti_insert_images ["images/page_1.png"]
            (ti_insert_images ["images/page_1.png"] ⟨0, []⟩)).records.length =
          (ti_insert_images ["images/page_1.png"] ⟨0, []⟩).records.length := by
  constructor
  · rfl
  · decide

/-! ## `image_process/image_extract.py` lines 47–144: the picture loop

`extract_graphs_to_single_file` iterates over the document items; for every
item labelled "picture" it increments `pic_index` first, then resolves the
caption (markdown stripped, with a `Graph {pic_index}` fallback when the
markdown is empty or raises), then tries to retrieve the image — on failure
it prints a warning and `continue`s, so the already-incremented counter
leaves a gap in the reported indices. The metadata JSON is written only
under `if extracted:`. -/

/-- A document item as seen by the loop: a picture carries the raw
`export_to_markdown()` result (`none` when it raises) and whether its image
can be retrieved. -/
inductive DocItem where
  | other : DocItem
  | picture (captionRaw : Option String) (imageOk : Bool) (page : Option Nat) : DocItem
deriving DecidableEq, Repr

/-- One entry of the returned list (the saved file path is derived from
`index` and `caption` and is not modelled). -/
structure GraphRec where
  index : Nat
  caption : String
  page : Option Nat
deriving DecidableEq, Repr

/-- The caption resolution: stripped markdown, with the `Graph {pic_index}`
fallback when the markdown is empty or raises. -/
def captionOf (picIndex : Nat) (raw : Option String) : String :=
  match raw with
  | none => "Graph " ++ toString picIndex
  | some s => if pyStrip s = "" then "Graph " ++ toString picIndex else pyStrip s

/-- How many items are labelled "picture" (each increments `pic_index`). -/
def pictureCount : List DocItem → Nat
  | [] => 0
  | .other :: rest => pictureCount rest
  | .picture _ _ _ :: rest => pictureCount rest + 1

/-- The picture loop with running counter `i` (`pic_index`). -/
def extract_loop : List DocItem → Nat → List GraphRec
  | [], _ => []
  | .other :: rest, i => extract_loop rest i
  | .picture raw ok pg :: rest, i =>
    if ok then
      ⟨i + 1, captionOf (i + 1) raw, pg⟩ :: extract_loop rest (i + 1)
    else
      extract_loop rest (i + 1)

/-- The list returned by `extract_graphs_to_single_file` (`pic_index`
starts at 0). -/
def extract_graphs_to_single_file (items : List DocItem) : List GraphRec :=
  extract_loop items 0

/-- Whether the metadata JSON file is written (`if extracted:`). -/
def jsonWritten (items : List DocItem) : Bool :=
  !(extract_graphs_to_single_file items).isEmpty

lemma extract_loop_index_gt :
    ∀ (items : List DocItem) (i : Nat), ∀ r ∈ extract_loop items i, i < r.index
  | [], _ => by simp [extract_loop]
  | .other :: rest, i => extract_loop_index_gt rest i
  | .picture raw ok pg :: rest, i => by
    rw [extract_loop]
    split
    · intro r hr
      rcases List.mem_cons.mp hr with h | h
      · rw [h]
        exact Nat.lt_succ_self i
      · exact Nat.lt_of_succ_lt (extract_loop_index_gt rest (i + 1) r h)
    · intro r hr
      exact Nat.lt_of_succ_lt (extract_loop_index_gt rest (i + 1) r hr)

lemma extract_loop_chain :
    ∀ (items : List DocItem) (i : Nat),
      List.Chain' (fun a b : GraphRec => a.index < b.index) (extract_loop items i)
  | [], _ => List.chain'_nil
  | .other :: rest, i => extract_loop_chain rest i
  | .picture raw ok pg :: rest, i => by
    rw [extract_loop]
    split
    · rw [List.chain'_cons']
      refine ⟨?_, extract_loop_chain rest (i + 1)⟩
      intro b hb
      exact extract_loop_index_gt rest (i + 1) b (List.mem_of_mem_head? hb)
    · exact extract_loop_chain rest (i + 1)

lemma extract_loop_append :
    ∀ (it1 it2 : List DocItem) (i : Nat),
      extract_loop (it1 ++ it2) i =
        extract_loop it1 i ++ extract_loop it2 (i + pictureCount it1)
  | [], it2, i => by simp [extract_loop, pictureCount]
  | .other :: rest, it2, i => by
    rw [List.cons_append, extract_loop, extract_loop, pictureCount]
    exact extract_loop_append rest it2 i
  | .picture raw ok pg :: rest, it2, i => by
    rw [List.cons_append, extract_loop, extract_loop, pictureCount]
    have harith : i + 1 + pictureCount rest = i + (pictureCount rest + 1) := by omega
    split
    · rw [List.cons_append, extract_loop_append rest it2 (i + 1), harith]
    · rw [extract_loop_append rest it2 (i + 1), harith]

/-- C10: the `index` fields in the list returned by
`extract_graphs_to_single_file` are strictly increasing but not necessarily
contiguous — the counter is incremented for every picture item encountered,
including those later skipped because their image cannot be retrieved, so
the records of a suffix start above the total picture count of the prefix,
skipped pictures included — and the metadata JSON file is written exactly
when at least one record was extracted. -/
theorem extract_indices_increasing_with_gaps (items it1 it2 : List DocItem) (i : Nat) :
    List.Chain' (fun a b : GraphRec => a.index < b.index)
        (extract_graphs_to_single_file items) ∧
      extract_loop (it1 ++ it2) i =
        extract_loop it1 i ++ extract_loop it2 (i + pictureCount it1) ∧
      (jsonWritten items = true ↔ extract_graphs_to_single_file items ≠ []) ∧
      (extract_graphs_to_single_file
          [DocItem.picture none true none, DocItem.picture none false none,
            DocItem.picture none true none]).map (fun r => r.index) = [1, 3] := by
  refine ⟨extract_loop_chain items 0, extract_loop_append it1 it2 i, ?_, by decide⟩
  rw [jsonWritten]
  cases extract_graphs_to_single_file items <;> simp

end StockAnalysis
